import Mathlib

/-!
Verification development for the kit feature-lifecycle core
(internal/feature, internal/document, pkg/cli/complete.go).

Go strings are modelled as `List Char`.  `strings.ToLower` / `strings.ToUpper`
are modelled by their ASCII simple case mapping (the full Unicode tables are
out of scope; every string the core manipulates — slugs, section names,
checkbox lines, markers — is ASCII).  `strconv.Atoi` is modelled as exact
decimal conversion to `Nat` (the feature-number claims never approach the
64-bit range where Atoi saturates).  Filesystem directories are modelled as
explicit lists of named entries.
-/

namespace Kit

/-- One byte/rune of the ASCII fragment we care about; `Char` code points. -/
abbrev Str := List Char

/-- Convert a Lean string literal to the `List Char` model. -/
def str (s : String) : Str := s.data

/-- Go regexp `\s` class: `[\t\n\f\r ]` (note: no vertical tab). -/
def isGoSpace (c : Char) : Bool :=
  c = ' ' || c = '\t' || c = '\n' || c = '\x0c' || c = '\r'

/-- Decimal digit, Go regexp `\d` = `[0-9]`. -/
def isDigitChar (c : Char) : Bool :=
  48 ≤ c.toNat && c.toNat ≤ 57

/-- Models `unicode.ToLower` as used by `strings.ToLower` (ASCII fragment). -/
def goToLower (c : Char) : Char :=
  if 65 ≤ c.toNat ∧ c.toNat ≤ 90 then Char.ofNat (c.toNat + 32) else c

/-- Models `unicode.ToUpper` as used by `strings.ToUpper` (ASCII fragment). -/
def goToUpper (c : Char) : Char :=
  if 97 ≤ c.toNat ∧ c.toNat ≤ 122 then Char.ofNat (c.toNat - 32) else c

/-- `strings.ToLower` on the string model. -/
def toLowerStr (s : Str) : Str := s.map goToLower

/-- `strings.ToUpper` on the string model. -/
def toUpperStr (s : Str) : Str := s.map goToUpper

/-! ### Line splitting (`bufio.Scanner` with `ScanLines`)

`ScanLines` yields the text between newlines, strips one trailing `\r`
from each line, and does not yield a final empty token when the data ends
with a newline (EOF with no pending data). -/

/-- Split at every newline; always returns one more part than there are
newlines (the Go `strings.Split` shape). -/
def splitNL : Str → List Str
  | [] => [[]]
  | '\n' :: rest => [] :: splitNL rest
  | c :: rest =>
    match splitNL rest with
    | l :: ls => (c :: l) :: ls
    | [] => [[c]]

/-- `dropCR` of `bufio.ScanLines`: strip one trailing carriage return. -/
def dropTrailingCR (l : Str) : Str :=
  if l.getLast? = some '\r' then l.dropLast else l

/-- The sequence of lines a `bufio.Scanner` produces from `c`. -/
def goLines (c : Str) : List Str :=
  let parts := splitNL c
  (if parts.getLast? = some ([] : Str) then parts.dropLast else parts).map
    dropTrailingCR

/-! ### Task progress (`internal/feature/status.go` `ParseTaskProgress`,
`internal/feature/feature.go` `parseTaskProgressFromPath`) -/

/-- `TaskProgress` from status.go. -/
structure TaskProgress where
  total : Nat
  complete : Nat
deriving DecidableEq, Repr

/-- `TaskProgress.Incomplete`. -/
def TaskProgress.incompleteCount (p : TaskProgress) : Nat := p.total - p.complete

/-- `TaskProgress.HasTasks`. -/
def TaskProgress.hasTasks (p : TaskProgress) : Bool := decide (0 < p.total)

/-- The common prefix `^\s*-\s*\[` of both checkbox regexps: leading
whitespace, a hyphen, optional whitespace, an opening bracket; returns the
rest of the line after the bracket. -/
def afterBracket (l : Str) : Option Str :=
  match l.dropWhile isGoSpace with
  | '-' :: t =>
    match t.dropWhile isGoSpace with
    | '[' :: u => some u
    | _ => none
  | _ => none

/-- Matcher for the Go regexp `^\s*-\s*\[\s*\]` (incomplete checkbox). -/
def matchIncomplete (l : Str) : Bool :=
  match afterBracket l with
  | some u =>
    match u.dropWhile isGoSpace with
    | ']' :: _ => true
    | _ => false
  | none => false

/-- Matcher for the Go regexp `^\s*-\s*\[[xX]\]` (complete checkbox). -/
def matchComplete (l : Str) : Bool :=
  match afterBracket l with
  | some u =>
    match u with
    | c :: ']' :: _ => c = 'x' || c = 'X'
    | _ => false
  | none => false

/-- The scanner loop shared by `ParseTaskProgress` and
`parseTaskProgressFromPath`: incomplete or complete lines increment `total`,
complete lines also increment `complete`. -/
def countLines : List Str → TaskProgress
  | [] => ⟨0, 0⟩
  | l :: ls =>
    let p := countLines ls
    if matchIncomplete l then ⟨p.total + 1, p.complete⟩
    else if matchComplete l then ⟨p.total + 1, p.complete + 1⟩
    else p

/-- `ParseTaskProgress` on file content (the file read always succeeds in the
model; the I/O error path returns the zero progress in the source). -/
def parseTaskProgress (content : Str) : TaskProgress :=
  countLines (goLines content)

/-- `ReflectionCompleteMarker`. -/
def markerChars : Str := str "<!-- REFLECTION_COMPLETE -->"

/-- `parseTaskProgressFromPath` marker detection: some scanned line contains
the marker (`strings.Contains(line, ReflectionCompleteMarker)`). -/
def tasksHasMarker (content : Str) : Bool :=
  (goLines content).any fun l => decide (markerChars <:+: l)

/-! ### Phase inference (`DeterminePhase`, `DeterminePhaseFromTasks`) -/

/-- `Phase` constants from feature.go. -/
inductive Phase where
  | spec
  | plan
  | tasks
  | implement
  | reflect
  | complete
deriving DecidableEq, Repr

/-- The on-disk state of one feature directory that `DeterminePhase`
inspects: whether SPEC.md / PLAN.md exist, and the content of TASKS.md when
it exists. -/
structure FeatureDir where
  hasSpec : Bool
  hasPlan : Bool
  tasks : Option Str
deriving DecidableEq

/-- `DeterminePhaseFromTasks` (the read error path cannot occur in the model:
the tasks file content is given). -/
def determinePhaseFromTasks (content : Str) : Phase :=
  let progress := parseTaskProgress content
  if progress.total = 0 then .tasks
  else if progress.complete = progress.total then
    if tasksHasMarker content then .complete else .reflect
  else .implement

/-- `DeterminePhase`: TASKS.md first, then PLAN.md, then SPEC.md, with
`spec` as the fallback either way. -/
def determinePhase (fd : FeatureDir) : Phase :=
  match fd.tasks with
  | some content => determinePhaseFromTasks content
  | none =>
    if fd.hasPlan then .plan
    else if fd.hasSpec then .spec
    else .spec

/-! ### Completion marker append (`pkg/cli/complete.go`
`appendReflectionMarker`), modelled as a pure content transform. -/

/-- `appendReflectionMarker`: no-op when the marker is already contained;
otherwise append a newline when the content does not end in one, then a
blank line, the marker, and a trailing newline. -/
def appendReflectionMarker (c : Str) : Str :=
  if markerChars <:+: c then c
  else
    let c' := if ['\n'] <:+ c then c else c ++ ['\n']
    c' ++ '\n' :: markerChars ++ ['\n']

/-- Number of occurrences of `pat` in `s` (all start offsets at which `pat`
is a prefix of the rest of `s`). -/
def countOcc (pat : Str) : Str → Nat
  | [] => if pat <+: ([] : Str) then 1 else 0
  | a :: s => (if pat <+: a :: s then 1 else 0) + countOcc pat s

/-! ### Slug validation and normalization (`ValidateSlug`, `NormalizeSlug`) -/

/-- Character class `[a-z0-9-]` as the loop in `NormalizeSlug` tests it. -/
def isSlugChar (c : Char) : Bool :=
  (97 ≤ c.toNat && c.toNat ≤ 122) || (48 ≤ c.toNat && c.toNat ≤ 57) || c = '-'

/-- Alphanumeric `[a-z0-9]` (one regexp character class of `slugPattern`). -/
def isSlugAlnum (c : Char) : Bool :=
  (97 ≤ c.toNat && c.toNat ≤ 122) || (48 ≤ c.toNat && c.toNat ≤ 57)

/-- Matcher for the part of `slugPattern` after the leading `[a-z]`:
`[a-z0-9]*(-[a-z0-9]+)*$`.  A hyphen must be followed by an alphanumeric. -/
def slugTail : Str → Bool
  | [] => true
  | c :: rest =>
    if c = '-' then
      match rest with
      | d :: rest' => isSlugAlnum d && slugTail rest'
      | [] => false
    else isSlugAlnum c && slugTail rest

/-- Matcher for the Go regexp `^[a-z][a-z0-9]*(-[a-z0-9]+)*$`. -/
def slugPatternMatch : Str → Bool
  | [] => false
  | c :: rest => (97 ≤ c.toNat && c.toNat ≤ 122) && slugTail rest

/-- The distinct failures of `ValidateSlug` (the error strings are glue). -/
inductive SlugError where
  | empty
  | invalidFormat
  | tooManyWords (n : Nat)
deriving DecidableEq, Repr

/-- `ValidateSlug`: empty check, then the regexp, then the
`strings.Split(slug, "-")` word count. -/
def validateSlug (slug : Str) : Option SlugError :=
  if slug = [] then some .empty
  else if ¬ slugPatternMatch slug then some .invalidFormat
  else
    let words := slug.splitOn '-'
    if words.length > 5 then some (.tooManyWords words.length) else none

/-- One pass of `strings.ReplaceAll(s, "--", "-")`: leftmost, non
overlapping. -/
def replDD : Str → Str
  | [] => []
  | [c] => [c]
  | a :: b :: rest =>
    if a = '-' ∧ b = '-' then '-' :: replDD rest
    else a :: replDD (b :: rest)

theorem replDD_length_le (s : Str) : (replDD s).length ≤ s.length := by
  induction s using replDD.induct with
  | case1 => simp [replDD]
  | case2 c => simp [replDD]
  | case3 a b rest h ih =>
    simp only [replDD, if_pos h, List.length_cons]
    omega
  | case4 a b rest h ih =>
    simp only [replDD, if_neg h, List.length_cons]
    simpa using ih

theorem mem_replDD {c : Char} {s : Str} (h : c ∈ replDD s) : c ∈ s := by
  induction s using replDD.induct with
  | case1 => simp [replDD] at h
  | case2 d => simpa [replDD] using h
  | case3 a b rest hab ih =>
    simp only [replDD, if_pos hab, List.mem_cons] at h
    rcases h with h | h
    · simp [hab.1, h]
    · simp [ih h]
  | case4 a b rest hab ih =>
    simp only [replDD, if_neg hab, List.mem_cons] at h
    rcases h with h | h
    · simp [h]
    · exact List.mem_cons_of_mem a (ih h)

theorem replDD_length_lt {s : Str} (h : ['-', '-'] <:+: s) :
    (replDD s).length < s.length := by
  induction s using replDD.induct with
  | case1 =>
    exact absurd (List.eq_nil_of_infix_nil h) (by simp)
  | case2 c =>
    have := h.length_le
    simp at this
  | case3 a b rest hab ih =>
    simp only [replDD, if_pos hab, List.length_cons]
    have := replDD_length_le rest
    omega
  | case4 a b rest hab ih =>
    have h' : ['-', '-'] <:+: b :: rest := by
      rcases (List.infix_cons_iff).mp h with hpre | htail
      · rcases hpre with ⟨t, ht⟩
        simp only [List.cons_append, List.cons.injEq] at ht
        exact absurd ⟨ht.1.symm, ht.2.1.symm⟩ hab
      · exact htail
    simp only [replDD, if_neg hab, List.length_cons]
    exact Nat.succ_lt_succ (ih h')

/-- The loop `for strings.Contains(slug, "--") { slug = ReplaceAll(slug,
"--", "-") }`, written with an explicit step bound so that it reduces by
computation.  Each replacement pass strictly shrinks the string
(`replDD_length_lt`), so a bound of `length + 1` is never exhausted. -/
def collapseGo : Nat → Str → Str
  | 0, s => s
  | fuel + 1, s => if ['-', '-'] <:+: s then collapseGo fuel (replDD s) else s

/-- The collapse loop of `NormalizeSlug`. -/
def collapseLoop (s : Str) : Str :=
  collapseGo (s.length + 1) s

/-- `strings.Trim(s, "-")`: drop leading and trailing hyphens. -/
def trimHyphens (s : Str) : Str :=
  (((s.dropWhile (· = '-')).reverse.dropWhile (· = '-'))).reverse

/-- `NormalizeSlug`. -/
def normalizeSlug (input : Str) : Str :=
  let s1 := input.map goToLower
  let s2 := s1.map fun c => if c = ' ' then '-' else c
  let s3 := s2.map fun c => if c = '_' then '-' else c
  let s4 := s3.filter isSlugChar
  trimHyphens (collapseLoop s4)

/-! ### Feature directory registry (`ListFeatures`, `NextNumber`,
`FindBySlug`, `FindByDirName`, `Resolve`, `Create`, `EnsureExists`)

A specs root is a list of directory entries (name, is-directory flag), the
data `os.ReadDir` exposes that the registry consumes. -/

/-- One entry of the specs root directory. -/
structure DirEntry where
  name : Str
  isDir : Bool
deriving DecidableEq

/-- The fields of `feature.Feature` the registry logic computes
(`Path` is path-join glue and `CreatedAt`/`Phase` are derived metadata not
involved in the indexing claims). -/
structure Feature where
  number : Nat
  slug : Str
  dirName : Str
deriving DecidableEq, Repr

/-- Digit extraction loop of `fmt.Sprintf("%d", n)`, with an explicit
step bound so it reduces by computation (dividing by ten needs at most
`n` steps, so a bound of `n + 1` is never exhausted). -/
def decimalDigitsGo : Nat → Nat → Str
  | 0, _ => []
  | fuel + 1, n =>
    if n = 0 then []
    else decimalDigitsGo fuel (n / 10) ++ [Nat.digitChar (n % 10)]

/-- `fmt.Sprintf("%d", n)`: decimal digits of `n`, most significant first. -/
def decimalDigits (n : Nat) : Str :=
  if n = 0 then ['0'] else decimalDigitsGo (n + 1) n

/-- `strconv.Atoi` on an all-digit string (exact; Atoi saturation at the
64-bit bound is out of the claims' range). -/
def digitsToNat (ds : Str) : Nat :=
  ds.foldl (fun acc c => 10 * acc + (c.toNat - 48)) 0

/-- Left zero-padding of `fmt.Sprintf("%0Nd", ·)`. -/
def padZeros (w : Nat) (ds : Str) : Str :=
  List.replicate (w - ds.length) '0' ++ ds

/-- The `feature_naming` part of `config.Config` (the only part the
registry reads: `NumericWidth` and `Separator`). -/
structure Config where
  numericWidth : Nat
  separator : Str

/-- `FormatDirName`. -/
def formatDirName (cfg : Config) (number : Nat) (slug : Str) : Str :=
  padZeros cfg.numericWidth (decimalDigits number) ++ cfg.separator ++ slug

/-- Matcher/extractor for the Go regexp `featureDirPattern =
^(\d+)-(.+)$`: a nonempty maximal digit prefix, a hyphen, and a nonempty
remainder not containing a newline (Go `.` does not match newlines and `$`
anchors at end of text). -/
def parseDirName (name : Str) : Option (Nat × Str) :=
  let ds := name.takeWhile isDigitChar
  let rest := name.dropWhile isDigitChar
  if ds = [] then none
  else
    match rest with
    | '-' :: slugPart =>
      if slugPart ≠ [] ∧ '\n' ∉ slugPart then some (digitsToNat ds, slugPart)
      else none
    | _ => none

/-- Comparison key of the `sort.Slice` call in `ListFeatures`. -/
def featureLE (a b : Feature) : Prop := a.number ≤ b.number

instance : DecidableRel featureLE := fun a b => Nat.decLe a.number b.number

instance : IsTotal Feature featureLE := ⟨fun a b => Nat.le_total a.number b.number⟩

instance : IsTrans Feature featureLE := ⟨fun _ _ _ => Nat.le_trans⟩

/-- `ListFeatures`: keep the directory entries matching
`featureDirPattern`, skip everything else, and sort ascending by number.
(Go uses an unspecified unstable sort; `insertionSort` is one sorted-by-
number permutation of the same entries, which is what every caller relies
on — the source never orders equal numbers.) -/
def listFeatures (entries : List DirEntry) : List Feature :=
  List.insertionSort featureLE
    (entries.filterMap fun e =>
      if e.isDir then
        (parseDirName e.name).map fun p => ⟨p.1, p.2, e.name⟩
      else none)

/-- `NextNumber`: 1 on an empty listing, else last (= largest) number + 1. -/
def nextNumber (entries : List DirEntry) : Nat :=
  match (listFeatures entries).getLast? with
  | none => 1
  | some f => f.number + 1

/-- `FindBySlug` (first feature whose lowercased slug equals the lowercased
query; the loop runs over the number-sorted listing). -/
def findBySlug (entries : List DirEntry) (slug : Str) : Option Feature :=
  (listFeatures entries).find? fun f => toLowerStr f.slug == toLowerStr slug

/-- `FindByDirName` (exact directory-name equality). -/
def findByDirName (entries : List DirEntry) (dirName : Str) : Option Feature :=
  (listFeatures entries).find? fun f => f.dirName == dirName

/-- `Resolve`: exact directory-name match first, then slug match. -/
def featResolve (entries : List DirEntry) (ref : Str) : Option Feature :=
  match findByDirName entries ref with
  | some f => some f
  | none => findBySlug entries ref

/-- The failure cases of `Create` / `EnsureExists` (messages are glue). -/
inductive CreateError where
  | invalidSlug (e : SlugError)
  | alreadyExists
  | mkdirFailed
deriving DecidableEq, Repr

/-- `Create`: validate, reject an existing slug, number, format the
directory name, `os.MkdirAll` (which succeeds when the directory already
exists and fails when a non-directory entry occupies the name). -/
def create (cfg : Config) (entries : List DirEntry) (slug : Str) :
    Except CreateError (Feature × List DirEntry) :=
  match validateSlug slug with
  | some e => .error (.invalidSlug e)
  | none =>
    match findBySlug entries slug with
    | some _ => .error .alreadyExists
    | none =>
      let num := nextNumber entries
      let dirName := formatDirName cfg num slug
      match entries.find? fun e => e.name == dirName with
      | some e =>
        if e.isDir then .ok (⟨num, slug, dirName⟩, entries)
        else .error .mkdirFailed
      | none => .ok (⟨num, slug, dirName⟩, entries ++ [⟨dirName, true⟩])

/-- `EnsureExists`: resolve, else normalize + validate + create.  The
`Bool` is the `wasCreated` result. -/
def ensureExists (cfg : Config) (entries : List DirEntry) (ref : Str) :
    Except CreateError (Feature × List DirEntry × Bool) :=
  match featResolve entries ref with
  | some f => .ok (f, entries, false)
  | none =>
    let slug := normalizeSlug ref
    match validateSlug slug with
    | some e => .error (.invalidSlug e)
    | none =>
      match create cfg entries slug with
      | .error e => .error e
      | .ok (f, entries') => .ok (f, entries', true)

/-! ### Document validation (`internal/document`, src/unnamed/part_011:
`DocumentType`, `RequiredSections`, `Document.Validate`) -/

/-- `DocumentType` constants. -/
inductive DocumentType where
  | constitution
  | spec
  | plan
  | tasks
  | analysis
  | progressSummary
deriving DecidableEq, Repr

/-- The `RequiredSections` table. -/
def requiredSections : DocumentType → List Str
  | .constitution =>
    [str "PRINCIPLES", str "CONSTRAINTS", str "NON-GOALS", str "DEFINITIONS"]
  | .spec =>
    [str "PROBLEM", str "GOALS", str "NON-GOALS", str "USERS",
     str "REQUIREMENTS", str "ACCEPTANCE", str "EDGE-CASES",
     str "OPEN-QUESTIONS"]
  | .plan =>
    [str "SUMMARY", str "APPROACH", str "COMPONENTS", str "DATA",
     str "INTERFACES", str "RISKS", str "TESTING"]
  | .tasks => [str "TASKS", str "DEPENDENCIES", str "NOTES"]
  | .analysis =>
    [str "UNDERSTANDING", str "QUESTIONS", str "RESEARCH",
     str "CLARIFICATIONS", str "ASSUMPTIONS", str "RISKS"]
  | .progressSummary =>
    [str "FEATURE PROGRESS TABLE", str "PROJECT INTENT",
     str "GLOBAL CONSTRAINTS", str "FEATURE SUMMARIES", str "LAST UPDATED"]

/-- A parsed section (`document.Section`). -/
structure DocSection where
  name : Str
  content : Str
  line : Nat
deriving DecidableEq

/-- A parsed document (`document.Document`). -/
structure Document where
  docType : DocumentType
  path : Str
  content : Str
  sections : List DocSection
deriving DecidableEq

/-- `document.ValidationError` (field `Section` is rendered as
`sectionName`; `section` is reserved in Lean). -/
structure ValidationError where
  document : Str
  sectionName : Str
  message : Str
  fix : Str
deriving DecidableEq

/-- The error `Document.Validate` appends for one missing required
section. -/
def missingSectionError (path req : Str) : ValidationError :=
  ⟨path, req,
   str "missing required section \x27" ++ req ++ str "\x27",
   str "Add a \x27## " ++ req ++ str "\x27 section to " ++ path⟩

/-- `Document.Validate`: one error per required section whose uppercased
name is not among the uppercased parsed section names (the source builds a
`found` set keyed by `strings.ToUpper(name)` and probes it with
`strings.ToUpper(req)`). -/
def Document.validate (d : Document) : List ValidationError :=
  (requiredSections d.docType).filterMap fun req =>
    if d.sections.any fun s => toUpperStr s.name == toUpperStr req then none
    else some (missingSectionError d.path req)

/-! ### Spec-side comparison definitions

Each is modelled from the spec's words, not from the source, to compare a
claim's literal statement with the code's behaviour. -/

/-- Modelled from the spec: a line counts as an incomplete checkbox when,
after stripping leading whitespace, it starts with the literal text
followed by zero or more spaces inside the brackets: a hyphen, one space,
an opening bracket, spaces, a closing bracket. -/
def specMatchIncomplete (l : Str) : Bool :=
  match l.dropWhile isGoSpace with
  | '-' :: ' ' :: '[' :: u =>
    match u.dropWhile (· = ' ') with
    | ']' :: _ => true
    | _ => false
  | _ => false

/-- Modelled from the spec: a line counts as a complete checkbox when,
after stripping leading whitespace, it starts with the five literal
characters of a completed checkbox. -/
def specMatchComplete (l : Str) : Bool :=
  match l.dropWhile isGoSpace with
  | '-' :: ' ' :: '[' :: c :: ']' :: _ => c = 'x' || c = 'X'
  | _ => false

/-- Modelled from the spec: `total` counts lines matching either literal
checkbox form, `complete` counts the complete form only. -/
def specTaskCount (c : Str) : TaskProgress :=
  ⟨(goLines c).countP fun l => specMatchIncomplete l || specMatchComplete l,
   (goLines c).countP fun l => specMatchComplete l⟩

/-- Strip every trailing newline. -/
def trimTrailingNewlines (c : Str) : Str :=
  (c.reverse.dropWhile (· = '\n')).reverse

/-- Modelled from the spec: the marker append writes the original content
ending with exactly one trailing newline, then a blank line, the marker,
and a trailing newline. -/
def specAppendCompletionMarker (c : Str) : Str :=
  trimTrailingNewlines c ++ '\n' :: '\n' :: markerChars ++ ['\n']

/-! ### Occurrence counting lemmas -/

theorem countOcc_nil {pat : Str} (h : pat ≠ []) : countOcc pat [] = 0 := by
  simp [countOcc, h]

theorem countOcc_eq_zero {pat s : Str} (hne : pat ≠ [])
    (h : ¬ pat <:+: s) : countOcc pat s = 0 := by
  induction s with
  | nil => exact countOcc_nil hne
  | cons a s ih =>
    have h1 : ¬ pat <+: a :: s := fun hp => h hp.isInfix
    have h2 : ¬ pat <:+: s := fun hi => h (List.infix_cons hi)
    simp [countOcc, h1, ih h2]

theorem prefix_of_prefix_append_cons {pat x y : Str} (hnl : '\n' ∉ pat)
    (h : pat <+: x ++ '\n' :: y) : pat <+: x := by
  induction x generalizing pat with
  | nil =>
    match pat, h with
    | [], _ => exact List.nil_prefix
    | p :: pt, h =>
      rw [List.nil_append, List.cons_prefix_cons] at h
      exact absurd (by rw [← h.1]; exact List.mem_cons_self p pt) hnl
  | cons a x ih =>
    match pat, h with
    | [], _ => exact List.nil_prefix
    | p :: pt, h =>
      rw [List.cons_append, List.cons_prefix_cons] at h
      have hnl' : '\n' ∉ pt := fun hmem => hnl (List.mem_cons_of_mem p hmem)
      exact List.cons_prefix_cons.mpr ⟨h.1, ih hnl' h.2⟩

theorem countOcc_append_cons_newline {pat : Str} (x y : Str)
    (hnl : '\n' ∉ pat) (hne : pat ≠ []) :
    countOcc pat (x ++ '\n' :: y) = countOcc pat x + countOcc pat y := by
  induction x with
  | nil =>
    have h1 : ¬ pat <+: '\n' :: y := by
      intro hp
      match pat, hne, hp with
      | p :: pt, _, hp =>
        rw [List.cons_prefix_cons] at hp
        exact hnl (by rw [← hp.1]; exact List.mem_cons_self p pt)
    simp [countOcc, h1, countOcc_nil hne, hne]
  | cons a x ih =>
    have hiff : pat <+: a :: (x ++ '\n' :: y) ↔ pat <+: a :: x := by
      constructor
      · intro h
        rw [← List.cons_append] at h
        exact prefix_of_prefix_append_cons hnl h
      · intro h
        rw [← List.cons_append]
        exact h.trans (List.prefix_append _ _)
    show (if pat <+: a :: (x ++ '\n' :: y) then 1 else 0) + countOcc pat (x ++ '\n' :: y) =
      ((if pat <+: a :: x then 1 else 0) + countOcc pat x) + countOcc pat y
    rw [if_congr hiff rfl rfl, ih]
    ring

theorem countOcc_of_length_lt {pat s : Str} (h : s.length < pat.length) :
    countOcc pat s = 0 := by
  induction s with
  | nil =>
    have : pat ≠ [] := by
      intro hp
      simp [hp] at h
    exact countOcc_nil this
  | cons a s ih =>
    have h1 : ¬ pat <+: a :: s := by
      intro hp
      have := hp.length_le
      omega
    have h2 : s.length < pat.length := by
      simp at h
      omega
    simp [countOcc, h1, ih h2]

theorem countOcc_self {pat : Str} (h : pat ≠ []) : countOcc pat pat = 1 := by
  match pat, h with
  | p :: pt, _ =>
    have h1 : (p :: pt : Str) <+: p :: pt := List.prefix_refl _
    have h2 : countOcc (p :: pt) pt = 0 :=
      countOcc_of_length_lt (by simp)
    simp [countOcc, h1, h2]

theorem markerChars_ne_nil : markerChars ≠ [] := by decide

theorem newline_not_mem_markerChars : '\n' ∉ markerChars := by decide

/-! ### Claim C5 -/

/-- Claim C5: `appendCompletionMarker` is idempotent — when the marker is
already present anywhere in the file it does nothing, repeating the call is
a no-op, and on marker-free content the result contains exactly one
occurrence of the marker string. -/
theorem appendReflectionMarker_idempotent (c : Str) :
    (markerChars <:+: c → appendReflectionMarker c = c) ∧
    appendReflectionMarker (appendReflectionMarker c) = appendReflectionMarker c ∧
    (¬ markerChars <:+: c → countOcc markerChars (appendReflectionMarker c) = 1) := by
  have hfirst : ∀ s : Str, markerChars <:+: s → appendReflectionMarker s = s :=
    fun s hs => by rw [appendReflectionMarker, if_pos hs]
  refine ⟨hfirst c, ?_, ?_⟩
  · by_cases h : markerChars <:+: c
    · rw [hfirst c h, hfirst c h]
    · have hfix : appendReflectionMarker c =
          (if ['\n'] <:+ c then c else c ++ ['\n']) ++ '\n' :: markerChars ++ ['\n'] := by
        rw [appendReflectionMarker, if_neg h]
      have hin : markerChars <:+: appendReflectionMarker c := by
        rw [hfix]
        exact ⟨(if ['\n'] <:+ c then c else c ++ ['\n']) ++ ['\n'], ['\n'], by simp⟩
      exact hfirst _ hin
  · intro h
    have hc' : countOcc markerChars (if ['\n'] <:+ c then c else c ++ ['\n']) = 0 := by
      split
      · exact countOcc_eq_zero markerChars_ne_nil h
      · have := countOcc_append_cons_newline c []
          newline_not_mem_markerChars markerChars_ne_nil
        rw [this, countOcc_eq_zero markerChars_ne_nil h, countOcc_nil markerChars_ne_nil]
    have hm : countOcc markerChars (markerChars ++ ['\n']) = 1 := by
      have := countOcc_append_cons_newline markerChars []
        newline_not_mem_markerChars markerChars_ne_nil
      rw [this, countOcc_self markerChars_ne_nil, countOcc_nil markerChars_ne_nil]
    have hform : appendReflectionMarker c =
        (if ['\n'] <:+ c then c else c ++ ['\n']) ++ ('\n' :: (markerChars ++ ['\n'])) := by
      rw [appendReflectionMarker, if_neg h]
      simp [List.append_assoc]
    rw [hform, countOcc_append_cons_newline _ _ newline_not_mem_markerChars markerChars_ne_nil,
      hc', hm]

/-- Witness for C5 at concrete marker-free content. -/
theorem appendReflectionMarker_idempotent_witness :
    appendReflectionMarker (appendReflectionMarker (str "a")) =
        appendReflectionMarker (str "a") ∧
      countOcc markerChars (appendReflectionMarker (str "a")) = 1 :=
  ⟨(appendReflectionMarker_idempotent (str "a")).2.1,
   (appendReflectionMarker_idempotent (str "a")).2.2 (by decide)⟩

/-! ### Claim C7 -/

theorem trimTrailingNewlines_eq_self {c : Str} (h : ¬ ['\n'] <:+ c) :
    trimTrailingNewlines c = c := by
  cases hc : c.reverse with
  | nil =>
    have hce : c = [] := by simpa using congrArg List.reverse hc
    simp [hce, trimTrailingNewlines]
  | cons a t =>
    have hc' : c = t.reverse ++ [a] := by simpa using congrArg List.reverse hc
    have ha : ¬ a = '\n' := by
      rintro rfl
      exact h ⟨t.reverse, hc'.symm⟩
    unfold trimTrailingNewlines
    rw [hc, List.dropWhile_cons_of_neg (by simpa using ha), ← hc, List.reverse_reverse]

/-- Counterexample to claim C7 as stated: on content ending in two
newlines the code keeps both (it only adds a newline when none is
present), so the written content is not the original trimmed to exactly
one trailing newline. -/
theorem appendReflectionMarker_spec_counterexample :
    ¬ markerChars <:+: str "a\n\n" ∧
      appendReflectionMarker (str "a\n\n") ≠
        specAppendCompletionMarker (str "a\n\n") := by
  constructor
  · decide
  · decide

/-- Claim C7 (amended): for content without the marker that does not
already end in two or more newlines, the appended file is the original
content ending with exactly one trailing newline, then a blank line, the
marker, and a trailing newline. -/
theorem appendReflectionMarker_layout (c : Str)
    (hm : ¬ markerChars <:+: c) (hnn : ¬ ['\n', '\n'] <:+ c) :
    appendReflectionMarker c = specAppendCompletionMarker c := by
  have hstep : appendReflectionMarker c =
      (if ['\n'] <:+ c then c else c ++ ['\n']) ++ '\n' :: markerChars ++ ['\n'] := by
    rw [appendReflectionMarker, if_neg hm]
  rw [hstep]
  unfold specAppendCompletionMarker
  by_cases hnl : ['\n'] <:+ c
  · obtain ⟨t, rfl⟩ := hnl
    have ht : ¬ ['\n'] <:+ t := by
      rintro ⟨u, rfl⟩
      exact hnn ⟨u, by simp⟩
    have htrim : trimTrailingNewlines (t ++ ['\n']) = t := by
      have h2 : (t ++ ['\n']).reverse = '\n' :: t.reverse := by simp
      unfold trimTrailingNewlines
      rw [h2, List.dropWhile_cons_of_pos]
      · exact trimTrailingNewlines_eq_self ht
      · decide
    rw [if_pos ⟨t, rfl⟩, htrim]
    simp
  · rw [if_neg hnl, trimTrailingNewlines_eq_self hnl]
    simp

/-- Witness for C7 at concrete content ending in a single newline. -/
theorem appendReflectionMarker_layout_witness :
    appendReflectionMarker (str "a\n") = specAppendCompletionMarker (str "a\n") :=
  appendReflectionMarker_layout (str "a\n") (by decide) (by decide)

/-! ### Claim C10 -/

/-- Claim C10: a non-empty normalization result can still be rejected by
validation — "9 lives" normalizes to the non-empty "9-lives", which fails
the slug pattern (it starts with a digit), and an `EnsureExists` flow on
that input surfaces the invalid-slug error; a six-word input is normalized
and then rejected for its word count. -/
theorem normalize_not_sufficient_for_validate :
    normalizeSlug (str "9 lives") = str "9-lives" ∧
      str "9-lives" ≠ ([] : Str) ∧
      validateSlug (str "9-lives") = some .invalidFormat ∧
      ensureExists ⟨4, str "-"⟩ [] (str "9 lives") =
        .error (.invalidSlug .invalidFormat) ∧
      validateSlug (normalizeSlug (str "one two three four five six")) =
        some (.tooManyWords 6) := by
  refine ⟨by decide, by decide, by decide, ?_, by decide⟩
  rfl

/-! ### Claim C9: normalization is idempotent -/

theorem mem_collapseGo {c : Char} :
    ∀ (fuel : Nat) (s : Str), c ∈ collapseGo fuel s → c ∈ s := by
  intro fuel
  induction fuel with
  | zero => intro s h; exact h
  | succ fuel ih =>
    intro s h
    rw [collapseGo] at h
    split at h
    · exact mem_replDD (ih _ h)
    · exact h

theorem not_dd_infix_collapseGo :
    ∀ (fuel : Nat) (s : Str), s.length < fuel →
      ¬ ['-', '-'] <:+: collapseGo fuel s := by
  intro fuel
  induction fuel with
  | zero => intro s h; omega
  | succ fuel ih =>
    intro s hlen
    rw [collapseGo]
    split
    · next hdd =>
      exact ih (replDD s) (by have := replDD_length_lt hdd; omega)
    · next hdd => exact hdd

theorem collapseGo_eq_self {s : Str} (h : ¬ ['-', '-'] <:+: s) :
    ∀ fuel, collapseGo fuel s = s := by
  intro fuel
  cases fuel with
  | zero => rfl
  | succ fuel => rw [collapseGo, if_neg h]

theorem not_dd_infix_collapseLoop (s : Str) :
    ¬ ['-', '-'] <:+: collapseLoop s :=
  not_dd_infix_collapseGo (s.length + 1) s (Nat.lt_succ_self _)

theorem goToLower_slugChar {c : Char} (h : isSlugChar c = true) :
    goToLower c = c := by
  rw [isSlugChar] at h
  simp only [Bool.or_eq_true, Bool.and_eq_true, decide_eq_true_eq] at h
  rcases h with (⟨h1, h2⟩ | ⟨h1, h2⟩) | h
  · rw [goToLower, if_neg (by omega)]
  · rw [goToLower, if_neg (by omega)]
  · subst h; decide

theorem replaceSpace_slugChar {c : Char} (h : isSlugChar c = true) :
    (if c = ' ' then '-' else c) = c := by
  by_cases hc : c = ' '
  · subst hc; exact absurd h (by decide)
  · rw [if_neg hc]

theorem replaceUnderscore_slugChar {c : Char} (h : isSlugChar c = true) :
    (if c = '_' then '-' else c) = c := by
  by_cases hc : c = '_'
  · subst hc; exact absurd h (by decide)
  · rw [if_neg hc]

theorem map_id_of_mem {f : Char → Char} {l : Str}
    (h : ∀ c ∈ l, f c = c) : l.map f = l := by
  induction l with
  | nil => rfl
  | cons a l ih =>
    simp only [List.map_cons, h a (List.mem_cons_self a l)]
    rw [ih fun c hc => h c (List.mem_cons_of_mem a hc)]

theorem head_dropWhile_ne {p : Char → Bool} {l : Str} {x : Char}
    (hx : (l.dropWhile p).head? = some x) : p x = false := by
  have h := List.head?_dropWhile_not p l
  rw [hx] at h
  exact h

theorem trimHyphens_within (s : Str) : trimHyphens s <:+: s := by
  have h1 : s.dropWhile (· = '-') <:+ s := List.dropWhile_suffix _
  have h2 : (s.dropWhile (· = '-')).reverse.dropWhile (· = '-') <:+
      (s.dropWhile (· = '-')).reverse := List.dropWhile_suffix _
  have h3 : trimHyphens s <+: s.dropWhile (· = '-') := by
    have := List.reverse_prefix.mpr h2
    simpa [trimHyphens] using this
  exact h3.isInfix.trans h1.isInfix

theorem trimHyphens_mem {c : Char} {s : Str} (h : c ∈ trimHyphens s) :
    c ∈ s :=
  (trimHyphens_within s).sublist.subset h

theorem trimHyphens_head (s : Str) : (trimHyphens s).head? ≠ some '-' := by
  intro h
  rw [trimHyphens, List.head?_reverse] at h
  have hne : (s.dropWhile (· = '-')).reverse.dropWhile (· = '-') ≠ [] := by
    intro hnil
    rw [hnil] at h
    simp at h
  obtain ⟨u, hu⟩ :=
    List.dropWhile_suffix (l := (s.dropWhile (· = '-')).reverse) (· = '-')
  have hlast : (s.dropWhile (· = '-')).reverse.getLast? = some '-' := by
    conv_lhs => rw [← hu]
    rw [List.getLast?_append_of_ne_nil _ hne]
    exact h
  rw [List.getLast?_reverse] at hlast
  have hhd := head_dropWhile_ne hlast
  simp at hhd

theorem trimHyphens_getLast (s : Str) :
    (trimHyphens s).getLast? ≠ some '-' := by
  intro h
  rw [trimHyphens, List.getLast?_reverse] at h
  have := head_dropWhile_ne (p := (· = '-'))
    (l := (s.dropWhile (· = '-')).reverse) h
  simp at this

theorem trimHyphens_eq_self {y : Str} (h1 : y.head? ≠ some '-')
    (h2 : y.getLast? ≠ some '-') : trimHyphens y = y := by
  have hd : y.dropWhile (· = '-') = y := by
    cases y with
    | nil => rfl
    | cons a t =>
      have : ¬ a = '-' := fun ha => h1 (by simp [ha])
      rw [List.dropWhile_cons_of_neg (by simpa using this)]
  rw [trimHyphens, hd]
  cases hy : y.reverse with
  | nil => simp [List.reverse_eq_nil_iff.mp hy]
  | cons a t =>
    have ha : ¬ a = '-' := by
      intro ha
      apply h2
      rw [← List.head?_reverse, hy, ha]
      rfl
    rw [List.dropWhile_cons_of_neg (by simpa using ha), ← hy,
      List.reverse_reverse]

theorem normalizeSlug_chars (x : Str) :
    ∀ c ∈ normalizeSlug x, isSlugChar c = true := by
  intro c hc
  rw [normalizeSlug] at hc
  have h1 := trimHyphens_mem hc
  have h2 := mem_collapseGo _ _ h1
  exact List.of_mem_filter h2

/-- Claim C9: `NormalizeSlug` is idempotent — normalizing an already
normalized string changes nothing, for every input (the function is total,
so it also never fails). -/
theorem normalizeSlug_idempotent (x : Str) :
    normalizeSlug (normalizeSlug x) = normalizeSlug x := by
  have hchars := normalizeSlug_chars x
  set y := normalizeSlug x with hy
  have h1 : y.map goToLower = y :=
    map_id_of_mem fun c hc => goToLower_slugChar (hchars c hc)
  have h2 : y.map (fun c => if c = ' ' then '-' else c) = y :=
    map_id_of_mem fun c hc => replaceSpace_slugChar (hchars c hc)
  have h3 : y.map (fun c => if c = '_' then '-' else c) = y :=
    map_id_of_mem fun c hc => replaceUnderscore_slugChar (hchars c hc)
  have h4 : y.filter isSlugChar = y := List.filter_eq_self.mpr hchars
  have h5 : ¬ ['-', '-'] <:+: y := by
    intro hdd
    rw [hy, normalizeSlug] at hdd
    exact not_dd_infix_collapseLoop _ (hdd.trans (trimHyphens_within _))
  have h6 : collapseLoop y = y := collapseGo_eq_self h5 _
  have h7 : trimHyphens y = y := by
    refine trimHyphens_eq_self ?_ ?_
    · rw [hy, normalizeSlug]; exact trimHyphens_head _
    · rw [hy, normalizeSlug]; exact trimHyphens_getLast _
  rw [normalizeSlug, h1, h2, h3, h4, h6, h7]

/-! ### Claim C2: checkbox counting -/

theorem matchComplete_eq_false {l : Str} (h : matchIncomplete l = true) :
    matchComplete l = false := by
  rw [matchIncomplete] at h
  rw [matchComplete]
  cases hab : afterBracket l with
  | none => simp
  | some u =>
    rw [hab] at h
    simp only [hab]
    split
    · rename_i cH tl
      by_cases hc : cH = 'x' ∨ cH = 'X'
      · exfalso
        rcases hc with rfl | rfl <;> exact Bool.noConfusion h
      · push_neg at hc
        simp [hc.1, hc.2]
    · rfl

theorem countLines_cons (l : Str) (ls : List Str) :
    countLines (l :: ls) =
      if matchIncomplete l then
        ⟨(countLines ls).total + 1, (countLines ls).complete⟩
      else if matchComplete l then
        ⟨(countLines ls).total + 1, (countLines ls).complete + 1⟩
      else countLines ls := rfl

theorem countLines_eq (ls : List Str) :
    countLines ls =
      ⟨ls.countP (fun l => matchIncomplete l || matchComplete l),
       ls.countP (fun l => matchComplete l)⟩ := by
  induction ls with
  | nil => rfl
  | cons l ls ih =>
    rw [countLines_cons]
    by_cases h1 : matchIncomplete l
    · have h2 := matchComplete_eq_false h1
      simp [h1, h2, ih, List.countP_cons]
    · by_cases h2 : matchComplete l <;>
        simp [h1, h2, ih, List.countP_cons]

/-- Counterexample to claim C2 as stated: the code regexp allows zero
whitespace between the hyphen and the bracket, so the line "-[x] b" is
counted as a complete task although it does not start with the literal
five-character checkbox "- [x]" after leading whitespace. -/
theorem parseTaskProgress_spec_counterexample :
    parseTaskProgress (str "-[x] b") = ⟨1, 1⟩ ∧
      specTaskCount (str "-[x] b") = ⟨0, 0⟩ :=
  ⟨by decide, by decide⟩

/-- Claim C2 (amended): `Total` counts the lines matching the code's
incomplete pattern (leading whitespace, hyphen, optional whitespace,
bracket, whitespace, closing bracket) or its complete pattern (same with a
literal x/X inside); `Complete` counts only the complete-pattern lines; the
four-line example yields total 3 and complete 2. -/
theorem parseTaskProgress_counts (c : Str) :
    parseTaskProgress c =
      ⟨(goLines c).countP (fun l => matchIncomplete l || matchComplete l),
       (goLines c).countP (fun l => matchComplete l)⟩ ∧
      parseTaskProgress (str "- [ ] a\n- [x] b\n- [X] c\n- plain bullet") =
        ⟨3, 2⟩ :=
  ⟨countLines_eq _, by decide⟩

/-! ### Claim C1: the phase table -/

theorem countLines_complete_le_total (ls : List Str) :
    (countLines ls).complete ≤ (countLines ls).total := by
  induction ls with
  | nil => exact Nat.le_refl 0
  | cons l ls ih =>
    rw [countLines_cons]
    by_cases h1 : matchIncomplete l <;> by_cases h2 : matchComplete l <;>
      simp [h1, h2] <;> omega

theorem determinePhaseFromTasks_eq (content : Str) :
    determinePhaseFromTasks content =
      if (parseTaskProgress content).total = 0 then .tasks
      else if (parseTaskProgress content).complete =
          (parseTaskProgress content).total then
        (if tasksHasMarker content then .complete else .reflect)
      else .implement := rfl

/-- Claim C1: `determinePhase` returns exactly the phase of the spec's
table — `spec` when neither PLAN.md nor TASKS.md exists (whatever SPEC.md
does), `plan` when PLAN.md exists without TASKS.md, and with TASKS.md
present: `tasks` iff the counted total is 0, `implement` iff some task is
open, `reflect` iff all are complete without the marker, `complete` iff
all are complete with the marker; the function is total, so it never
fails. -/
theorem determinePhase_table (fd : FeatureDir) :
    (fd.tasks = none → fd.hasPlan = false → determinePhase fd = Phase.spec) ∧
    (fd.tasks = none → fd.hasPlan = true → determinePhase fd = Phase.plan) ∧
    ∀ content, fd.tasks = some content →
      ((determinePhase fd = Phase.tasks ↔
          (parseTaskProgress content).total = 0) ∧
       (determinePhase fd = Phase.implement ↔
          0 < (parseTaskProgress content).total ∧
            (parseTaskProgress content).complete <
              (parseTaskProgress content).total) ∧
       (determinePhase fd = Phase.reflect ↔
          0 < (parseTaskProgress content).total ∧
            (parseTaskProgress content).complete =
              (parseTaskProgress content).total ∧
            tasksHasMarker content = false) ∧
       (determinePhase fd = Phase.complete ↔
          0 < (parseTaskProgress content).total ∧
            (parseTaskProgress content).complete =
              (parseTaskProgress content).total ∧
            tasksHasMarker content = true)) := by
  refine ⟨?_, ?_, ?_⟩
  · intro h hpl
    simp [determinePhase, h, hpl, ite_self]
  · intro h hpl
    simp [determinePhase, h, hpl]
  · intro content h
    have hphase : determinePhase fd = determinePhaseFromTasks content := by
      simp [determinePhase, h]
    rw [hphase, determinePhaseFromTasks_eq]
    have hle : (parseTaskProgress content).complete ≤
        (parseTaskProgress content).total := countLines_complete_le_total _
    by_cases h0 : (parseTaskProgress content).total = 0
    · rw [if_pos h0]
      refine ⟨by simp [h0], by simp [h0], by simp [h0], by simp [h0]⟩
    · rw [if_neg h0]
      by_cases h1 : (parseTaskProgress content).complete =
          (parseTaskProgress content).total
      · rw [if_pos h1]
        by_cases h2 : tasksHasMarker content
        · rw [if_pos h2]
          refine ⟨by simp [h0], ?_, ?_, ?_⟩
          · constructor
            · intro hh; exact absurd hh (by simp)
            · rintro ⟨-, hlt⟩; omega
          · constructor
            · intro hh; exact absurd hh (by simp)
            · rintro ⟨-, -, hmk⟩; rw [h2] at hmk; exact Bool.noConfusion hmk
          · exact ⟨fun _ => ⟨Nat.pos_of_ne_zero h0, h1, h2⟩, fun _ => rfl⟩
        · rw [if_neg h2]
          rw [Bool.not_eq_true] at h2
          refine ⟨by simp [h0], ?_, ?_, ?_⟩
          · constructor
            · intro hh; exact absurd hh (by simp)
            · rintro ⟨-, hlt⟩; omega
          · exact ⟨fun _ => ⟨Nat.pos_of_ne_zero h0, h1, h2⟩, fun _ => rfl⟩
          · constructor
            · intro hh; exact absurd hh (by simp)
            · rintro ⟨-, -, hmk⟩; rw [h2] at hmk; exact Bool.noConfusion hmk
      · rw [if_neg h1]
        refine ⟨by simp [h0], ?_, ?_, ?_⟩
        · exact ⟨fun _ => ⟨Nat.pos_of_ne_zero h0, by omega⟩, fun _ => rfl⟩
        · constructor
          · intro hh; exact absurd hh (by simp)
          · rintro ⟨-, heq, -⟩; exact absurd heq h1
        · constructor
          · intro hh; exact absurd hh (by simp)
          · rintro ⟨-, heq, -⟩; exact absurd heq h1

/-! ### Claims C3 and C4: the feature listing and numbering -/

theorem listFeatures_sorted (entries : List DirEntry) :
    (listFeatures entries).Sorted featureLE :=
  List.sorted_insertionSort featureLE _

theorem mem_listFeatures {entries : List DirEntry} {f : Feature} :
    f ∈ listFeatures entries ↔
      ∃ e ∈ entries, e.isDir = true ∧
        parseDirName e.name = some (f.number, f.slug) ∧ f.dirName = e.name := by
  obtain ⟨n, sl, dn⟩ := f
  rw [listFeatures,
    (List.perm_insertionSort featureLE _).mem_iff, List.mem_filterMap]
  constructor
  · rintro ⟨e, he, hsome⟩
    refine ⟨e, he, ?_⟩
    by_cases hd : e.isDir
    · rw [if_pos hd] at hsome
      cases hparse : parseDirName e.name with
      | none => rw [hparse] at hsome; exact absurd hsome (by simp)
      | some p =>
        rw [hparse] at hsome
        simp only [Option.map_some', Option.some.injEq] at hsome
        cases hsome
        exact ⟨hd, rfl, rfl⟩
    · rw [if_neg hd] at hsome
      exact absurd hsome (by simp)
  · rintro ⟨e, he, hd, hparse, hdir⟩
    refine ⟨e, he, ?_⟩
    have hdir' : dn = e.name := hdir
    have hparse' : parseDirName e.name = some (n, sl) := hparse
    subst hdir'
    rw [if_pos hd, hparse', Option.map_some']

theorem sorted_le_getLast :
    ∀ {l : List Feature} (_ : l.Sorted featureLE) (hne : l ≠ []),
      ∀ g ∈ l, g.number ≤ (l.getLast hne).number := by
  intro l
  induction l with
  | nil => intro _ hne; exact absurd rfl hne
  | cons a t ih =>
    intro hs hne g hg
    cases t with
    | nil =>
      rcases List.mem_singleton.mp hg with rfl
      exact Nat.le_refl _
    | cons b t' =>
      have hgl : (a :: b :: t').getLast hne =
          (b :: t').getLast (by simp) := by
        rw [List.getLast_cons]
      rcases List.mem_cons.mp hg with rfl | hg'
      · have hmem : (b :: t').getLast (by simp) ∈ b :: t' :=
          List.getLast_mem _
        have hrel := List.rel_of_sorted_cons hs _ hmem
        rw [hgl]
        exact hrel
      · have := ih hs.of_cons (by simp) g hg'
        rw [hgl]
        exact this

/-- Claim C3: `nextNumber` is 1 on a root without feature directories and
otherwise the maximum existing feature number plus one; gaps are never
reused — the root `{0001-a, 0002-b, 0005-c}` yields 6. -/
theorem nextNumber_max_plus_one (entries : List DirEntry) :
    (listFeatures entries = [] → nextNumber entries = 1) ∧
    (listFeatures entries ≠ [] →
      ∃ f ∈ listFeatures entries, nextNumber entries = f.number + 1 ∧
        ∀ g ∈ listFeatures entries, g.number ≤ f.number) ∧
    nextNumber [⟨str "0001-a", true⟩, ⟨str "0002-b", true⟩,
      ⟨str "0005-c", true⟩] = 6 := by
  refine ⟨?_, ?_, by decide⟩
  · intro h
    simp [nextNumber, h]
  · intro hne
    refine ⟨(listFeatures entries).getLast hne, List.getLast_mem hne, ?_,
      sorted_le_getLast (listFeatures_sorted entries) hne⟩
    rw [nextNumber, List.getLast?_eq_getLast _ hne]

/-- Witness for C3: the empty root and a one-feature root. -/
theorem nextNumber_max_plus_one_witness :
    nextNumber [] = 1 ∧
      ∃ f ∈ listFeatures [⟨str "0001-a", true⟩],
        nextNumber [⟨str "0001-a", true⟩] = f.number + 1 ∧
          ∀ g ∈ listFeatures [⟨str "0001-a", true⟩], g.number ≤ f.number :=
  ⟨(nextNumber_max_plus_one []).1 rfl,
   (nextNumber_max_plus_one [⟨str "0001-a", true⟩]).2.1 (by decide)⟩

/-- Claim C4: `list` keeps exactly the immediate subdirectories whose
names match the feature pattern (files and non-matching names are silently
skipped), parses them into (number, slug) and sorts ascending by number;
the example root yields exactly `[0001-bar, 0003-foo]`. -/
theorem listFeatures_spec (entries : List DirEntry) :
    (listFeatures entries).Sorted featureLE ∧
    (∀ f : Feature, f ∈ listFeatures entries ↔
      ∃ e ∈ entries, e.isDir = true ∧
        parseDirName e.name = some (f.number, f.slug) ∧ f.dirName = e.name) ∧
    listFeatures [⟨str "0003-foo", true⟩, ⟨str "0001-bar", true⟩,
        ⟨str "not-a-feature", true⟩, ⟨str "0002-afile", false⟩] =
      [⟨1, str "bar", str "0001-bar"⟩, ⟨3, str "foo", str "0003-foo"⟩] :=
  ⟨listFeatures_sorted entries, fun _ => mem_listFeatures, by decide⟩

/-- Witness for C4: instantiates the membership characterization at the
example root. -/
theorem listFeatures_spec_witness :
    (⟨1, str "bar", str "0001-bar"⟩ : Feature) ∈
      listFeatures [⟨str "0003-foo", true⟩, ⟨str "0001-bar", true⟩,
        ⟨str "not-a-feature", true⟩] :=
  ((listFeatures_spec [⟨str "0003-foo", true⟩, ⟨str "0001-bar", true⟩,
      ⟨str "not-a-feature", true⟩]).2.1 _).mpr
    ⟨⟨str "0001-bar", true⟩, by decide, by decide, by decide, by decide⟩

/-- Witness for C1 at a concrete feature directory in each row of the
table. -/
theorem determinePhase_table_witness :
    determinePhase ⟨true, false, none⟩ = Phase.spec ∧
      determinePhase ⟨true, true, none⟩ = Phase.plan ∧
      determinePhase ⟨true, true, some (str "- [x] a\n- [ ] b")⟩ =
        Phase.implement :=
  ⟨(determinePhase_table ⟨true, false, none⟩).1 rfl rfl,
   (determinePhase_table ⟨true, true, none⟩).2.1 rfl rfl,
   (((determinePhase_table ⟨true, true, some (str "- [x] a\n- [ ] b")⟩).2.2
      _ rfl).2.1).mpr (by decide)⟩

/-! ### Claim C8: document validation accumulates missing sections -/

theorem any_section_eq_true {sections : List DocSection} {req : Str}
    (h : ∃ s ∈ sections, toUpperStr s.name = toUpperStr req) :
    (sections.any fun s => toUpperStr s.name == toUpperStr req) = true := by
  obtain ⟨s, hs, he⟩ := h
  exact List.any_eq_true.mpr ⟨s, hs, by simp [he]⟩

theorem any_section_eq_false {sections : List DocSection} {req : Str}
    (h : ∀ s ∈ sections, toUpperStr s.name ≠ toUpperStr req) :
    (sections.any fun s => toUpperStr s.name == toUpperStr req) = false := by
  rw [List.any_eq_false]
  intro s hs
  simpa using h s hs

/-- Claim C8: validation walks the whole required-section table and emits
one `MissingSection` error per required name absent from the parsed
section names (compared case-insensitively) without short-circuiting: a
SPEC document whose sections cover every required name except ACCEPTANCE
and EDGE-CASES yields exactly those two errors, in table order, each
carrying the document path, the section name, and the suggested fix. -/
theorem validate_missing_sections (path content : Str)
    (sections : List DocSection)
    (hacc : ∀ s ∈ sections, toUpperStr s.name ≠ str "ACCEPTANCE")
    (hedge : ∀ s ∈ sections, toUpperStr s.name ≠ str "EDGE-CASES")
    (hrest : ∀ req ∈ requiredSections .spec, req ≠ str "ACCEPTANCE" →
      req ≠ str "EDGE-CASES" →
      ∃ s ∈ sections, toUpperStr s.name = toUpperStr req) :
    Document.validate ⟨.spec, path, content, sections⟩ =
      [missingSectionError path (str "ACCEPTANCE"),
       missingSectionError path (str "EDGE-CASES")] := by
  have h1 := any_section_eq_true
    (hrest (str "PROBLEM") (by decide) (by decide) (by decide))
  have h2 := any_section_eq_true
    (hrest (str "GOALS") (by decide) (by decide) (by decide))
  have h3 := any_section_eq_true
    (hrest (str "NON-GOALS") (by decide) (by decide) (by decide))
  have h4 := any_section_eq_true
    (hrest (str "USERS") (by decide) (by decide) (by decide))
  have h5 := any_section_eq_true
    (hrest (str "REQUIREMENTS") (by decide) (by decide) (by decide))
  have h8 := any_section_eq_true
    (hrest (str "OPEN-QUESTIONS") (by decide) (by decide) (by decide))
  have hA : (sections.any fun s =>
      toUpperStr s.name == toUpperStr (str "ACCEPTANCE")) = false :=
    any_section_eq_false fun s hs => by
      rw [show toUpperStr (str "ACCEPTANCE") = str "ACCEPTANCE" from by decide]
      exact hacc s hs
  have hE : (sections.any fun s =>
      toUpperStr s.name == toUpperStr (str "EDGE-CASES")) = false :=
    any_section_eq_false fun s hs => by
      rw [show toUpperStr (str "EDGE-CASES") = str "EDGE-CASES" from by decide]
      exact hedge s hs
  rw [Document.validate]
  show List.filterMap _
    [str "PROBLEM", str "GOALS", str "NON-GOALS", str "USERS",
     str "REQUIREMENTS", str "ACCEPTANCE", str "EDGE-CASES",
     str "OPEN-QUESTIONS"] = _
  simp only [List.filterMap_cons, List.filterMap_nil, h1, h2, h3, h4, h5,
    h8, hA, hE, if_true, if_false]
  rfl

/-- Witness for C8: a SPEC document carrying the six other required
sections (two of them in a different letter case). -/
theorem validate_missing_sections_witness :
    Document.validate ⟨.spec, str "SPEC.md", [],
      [⟨str "Problem", [], 1⟩, ⟨str "goals", [], 2⟩,
       ⟨str "NON-GOALS", [], 3⟩, ⟨str "USERS", [], 4⟩,
       ⟨str "REQUIREMENTS", [], 5⟩, ⟨str "OPEN-QUESTIONS", [], 6⟩]⟩ =
      [missingSectionError (str "SPEC.md") (str "ACCEPTANCE"),
       missingSectionError (str "SPEC.md") (str "EDGE-CASES")] :=
  validate_missing_sections _ _ _ (by decide) (by decide) (by decide)

/-! ### Claim C6: create/resolve round trip — digit and parsing lemmas -/

theorem digitChar_isDigit {d : Nat} (h : d < 10) :
    isDigitChar (Nat.digitChar d) = true := by
  interval_cases d <;> decide

theorem digitChar_val {d : Nat} (h : d < 10) :
    (Nat.digitChar d).toNat - 48 = d := by
  interval_cases d <;> decide

theorem decimalDigitsGo_eq :
    ∀ (fuel n : Nat), n < fuel →
      decimalDigitsGo fuel n = (Nat.digits 10 n).reverse.map Nat.digitChar := by
  intro fuel
  induction fuel with
  | zero => intro n h; omega
  | succ fuel ih =>
    intro n h
    rw [decimalDigitsGo]
    by_cases h0 : n = 0
    · rw [if_pos h0, h0]
      simp
    · rw [if_neg h0]
      have hdiv : n / 10 < fuel :=
        lt_of_lt_of_le (Nat.div_lt_self (Nat.pos_of_ne_zero h0) (by norm_num))
          (by omega)
      rw [ih _ hdiv, Nat.digits_def' (by norm_num) (Nat.pos_of_ne_zero h0)]
      simp

theorem decimalDigits_eq (n : Nat) :
    decimalDigits n =
      if n = 0 then ['0']
      else (Nat.digits 10 n).reverse.map Nat.digitChar := by
  rw [decimalDigits]
  by_cases h0 : n = 0
  · rw [if_pos h0, if_pos h0]
  · rw [if_neg h0, if_neg h0, decimalDigitsGo_eq _ _ (Nat.lt_succ_self n)]

theorem decimalDigits_digits (n : Nat) :
    ∀ c ∈ decimalDigits n, isDigitChar c = true := by
  intro c hc
  rw [decimalDigits_eq] at hc
  split at hc
  · rw [List.mem_singleton] at hc
    subst hc
    decide
  · simp only [List.mem_map, List.mem_reverse] at hc
    obtain ⟨d, hd, rfl⟩ := hc
    exact digitChar_isDigit (Nat.digits_lt_base (by norm_num) hd)

theorem decimalDigits_ne_nil (n : Nat) : decimalDigits n ≠ [] := by
  rw [decimalDigits_eq]
  split
  · simp
  · next h =>
    simp only [ne_eq, List.map_eq_nil_iff, List.reverse_eq_nil_iff]
    exact Nat.digits_ne_nil_iff_ne_zero.mpr h

theorem foldl_digits_eq_ofDigits :
    ∀ (L : List Nat), (∀ d ∈ L, d < 10) →
      digitsToNat ((L.reverse).map Nat.digitChar) = Nat.ofDigits 10 L := by
  intro L
  induction L with
  | nil => intro _; rfl
  | cons d L ih =>
    intro h
    have hd : d < 10 := h d (List.mem_cons_self _ _)
    have ihh := ih fun x hx => h x (List.mem_cons_of_mem _ hx)
    rw [List.reverse_cons, List.map_append, digitsToNat, List.foldl_append]
    rw [digitsToNat] at ihh
    simp only [List.map_cons, List.map_nil, List.foldl_cons, List.foldl_nil]
    rw [ihh, digitChar_val hd, Nat.ofDigits_cons]
    ring

theorem digitsToNat_decimalDigits (n : Nat) :
    digitsToNat (decimalDigits n) = n := by
  rw [decimalDigits_eq]
  split
  · next h => rw [h]; decide
  · rw [foldl_digits_eq_ofDigits _
      (fun d hd => Nat.digits_lt_base (by norm_num) hd), Nat.ofDigits_digits]

theorem foldl_replicate_zero (k : Nat) :
    List.foldl (fun acc c => 10 * acc + (c.toNat - 48)) 0
      (List.replicate k '0') = 0 := by
  induction k with
  | zero => rfl
  | succ k ih =>
    rw [List.replicate_succ, List.foldl_cons]
    exact ih

theorem digitsToNat_padZeros (w : Nat) (ds : Str) :
    digitsToNat (padZeros w ds) = digitsToNat ds := by
  rw [padZeros]
  show List.foldl _ 0 (List.replicate _ '0' ++ ds) = _
  rw [List.foldl_append, foldl_replicate_zero]
  rfl

theorem padZeros_digits {w : Nat} {ds : Str}
    (h : ∀ c ∈ ds, isDigitChar c = true) :
    ∀ c ∈ padZeros w ds, isDigitChar c = true := by
  intro c hc
  rw [padZeros, List.mem_append] at hc
  rcases hc with hc | hc
  · rw [List.eq_of_mem_replicate hc]
    decide
  · exact h c hc

theorem padZeros_ne_nil {w : Nat} {ds : Str} (h : ds ≠ []) :
    padZeros w ds ≠ [] := by
  rw [padZeros]
  intro hnil
  rw [List.append_eq_nil] at hnil
  exact h hnil.2

theorem takeWhile_append_all {p : Char → Bool} {u : Str} (v : Str)
    (h : ∀ c ∈ u, p c = true) :
    (u ++ v).takeWhile p = u ++ v.takeWhile p := by
  induction u with
  | nil => rfl
  | cons a u ih =>
    rw [List.cons_append, List.takeWhile_cons_of_pos
      (h a (List.mem_cons_self _ _)), List.cons_append,
      ih fun c hc => h c (List.mem_cons_of_mem _ hc)]

theorem dropWhile_append_all {p : Char → Bool} {u : Str} (v : Str)
    (h : ∀ c ∈ u, p c = true) :
    (u ++ v).dropWhile p = v.dropWhile p := by
  induction u with
  | nil => rfl
  | cons a u ih =>
    rw [List.cons_append, List.dropWhile_cons_of_pos
      (h a (List.mem_cons_self _ _)),
      ih fun c hc => h c (List.mem_cons_of_mem _ hc)]

theorem parseDirName_eq (name : Str) :
    parseDirName name =
      if name.takeWhile isDigitChar = [] then none
      else
        match name.dropWhile isDigitChar with
        | '-' :: slugPart =>
          if slugPart ≠ [] ∧ '\n' ∉ slugPart then
            some (digitsToNat (name.takeWhile isDigitChar), slugPart)
          else none
        | _ => none := rfl

theorem parseDirName_format (cfg : Config) (hsep : cfg.separator = ['-'])
    (n : Nat) (slug : Str) (hne : slug ≠ []) (hnl : '\n' ∉ slug) :
    parseDirName (formatDirName cfg n slug) = some (n, slug) := by
  rw [formatDirName, hsep]
  have hdig : ∀ c ∈ padZeros cfg.numericWidth (decimalDigits n),
      isDigitChar c = true := padZeros_digits (decimalDigits_digits n)
  have hpne : padZeros cfg.numericWidth (decimalDigits n) ≠ [] :=
    padZeros_ne_nil (decimalDigits_ne_nil n)
  have heq : padZeros cfg.numericWidth (decimalDigits n) ++ ['-'] ++ slug =
      padZeros cfg.numericWidth (decimalDigits n) ++ ('-' :: slug) := by
    simp
  rw [heq, parseDirName_eq, takeWhile_append_all _ hdig,
    dropWhile_append_all _ hdig, List.takeWhile_cons_of_neg (by decide),
    List.dropWhile_cons_of_neg (by decide), List.append_nil, if_neg hpne]
  show (if slug ≠ [] ∧ '\n' ∉ slug then
      some (digitsToNat (padZeros cfg.numericWidth (decimalDigits n)), slug)
    else none) = some (n, slug)
  rw [if_pos ⟨hne, hnl⟩, digitsToNat_padZeros, digitsToNat_decimalDigits]

theorem parseDirName_head {name : Str} {p : Nat × Str}
    (h : parseDirName name = some p) :
    ∃ d t, name = d :: t ∧ isDigitChar d = true := by
  cases name with
  | nil =>
    rw [parseDirName_eq] at h
    simp at h
  | cons d t =>
    refine ⟨d, t, rfl, ?_⟩
    by_cases hd : isDigitChar d
    · exact hd
    · exfalso
      rw [parseDirName_eq,
        List.takeWhile_cons_of_neg (by simpa using hd)] at h
      simp at h

/-! ### Claim C6: slug shape facts -/

theorem slugChar_of_alnum {c : Char} (h : isSlugAlnum c = true) :
    isSlugChar c = true := by
  rw [isSlugAlnum] at h
  rw [isSlugChar, h]
  rfl

theorem alnum_ne_hyphen {c : Char} (h : isSlugAlnum c = true) : c ≠ '-' := by
  rintro rfl
  exact absurd h (by decide)

theorem slugTail_cons (c : Char) (rest : Str) :
    slugTail (c :: rest) =
      if c = '-' then
        match rest with
        | d :: rest' => isSlugAlnum d && slugTail rest'
        | [] => false
      else isSlugAlnum c && slugTail rest := by
  rw [slugTail.eq_def]
  rfl

theorem slugTail_chars :
    ∀ {t : Str}, slugTail t = true → ∀ c ∈ t, isSlugChar c = true := by
  intro t
  induction t with
  | nil => intro _ c hc; simp at hc
  | cons a rest ih =>
    intro h c hc
    rw [slugTail_cons] at h
    by_cases ha : a = '-'
    · subst ha
      rw [if_pos rfl] at h
      cases rest with
      | nil => exact absurd h (by decide)
      | cons d rest' =>
        rw [Bool.and_eq_true] at h
        have hd : slugTail (d :: rest') = true := by
          rw [slugTail_cons, if_neg (alnum_ne_hyphen h.1)]
          rw [Bool.and_eq_true]
          exact h
        rcases List.mem_cons.mp hc with rfl | hc'
        · decide
        · exact ih hd c hc'
    · rw [if_neg ha, Bool.and_eq_true] at h
      rcases List.mem_cons.mp hc with rfl | hc'
      · exact slugChar_of_alnum h.1
      · exact ih h.2 c hc'

theorem validateSlug_none_parts {slug : Str}
    (h : validateSlug slug = none) :
    slug ≠ [] ∧ slugPatternMatch slug = true := by
  by_cases he : slug = []
  · rw [validateSlug, if_pos he] at h
    exact absurd h (by simp)
  · refine ⟨he, ?_⟩
    by_cases hp : slugPatternMatch slug = true
    · exact hp
    · rw [validateSlug, if_neg he, if_pos (by simpa using hp)] at h
      exact absurd h (by simp)

theorem validateSlug_none_chars {slug : Str}
    (h : validateSlug slug = none) : ∀ c ∈ slug, isSlugChar c = true := by
  obtain ⟨hne, hp⟩ := validateSlug_none_parts h
  intro c hc
  match slug, hne, hp, hc with
  | c0 :: t0, _, hp, hc =>
    rw [show slugPatternMatch (c0 :: t0) =
      ((97 ≤ c0.toNat && c0.toNat ≤ 122) && slugTail t0) from rfl,
      Bool.and_eq_true] at hp
    rcases List.mem_cons.mp hc with rfl | hc'
    · rw [isSlugChar]
      rw [hp.1]
      rfl
    · exact slugTail_chars hp.2 c hc'

theorem validateSlug_none_head {slug : Str}
    (h : validateSlug slug = none) :
    ∃ c t, slug = c :: t ∧ 97 ≤ c.toNat ∧ c.toNat ≤ 122 := by
  obtain ⟨hne, hp⟩ := validateSlug_none_parts h
  match slug, hne, hp with
  | c0 :: t0, _, hp =>
    rw [show slugPatternMatch (c0 :: t0) =
      ((97 ≤ c0.toNat && c0.toNat ≤ 122) && slugTail t0) from rfl,
      Bool.and_eq_true, Bool.and_eq_true] at hp
    exact ⟨c0, t0, rfl, by simpa using hp.1.1, by simpa using hp.1.2⟩

theorem toLowerStr_of_slugChars {slug : Str}
    (h : ∀ c ∈ slug, isSlugChar c = true) : toLowerStr slug = slug :=
  map_id_of_mem fun c hc => goToLower_slugChar (h c hc)

/-! ### Claim C6: the round trip itself -/

theorem find?_eq_some_of_unique {p : Feature → Bool} {l : List Feature}
    {f : Feature} (hmem : f ∈ l) (hpf : p f = true)
    (huniq : ∀ g ∈ l, p g = true → g = f) : l.find? p = some f := by
  induction l with
  | nil => simp at hmem
  | cons a l ih =>
    by_cases hpa : p a = true
    · have ha : a = f := huniq a (List.mem_cons_self _ _) hpa
      subst ha
      rw [List.find?_cons_of_pos _ hpa]
    · rw [List.find?_cons_of_neg _ hpa]
      rcases List.mem_cons.mp hmem with rfl | hm
      · exact absurd hpf hpa
      · exact ih hm fun g hg hpg => huniq g (List.mem_cons_of_mem _ hg) hpg

theorem featResolve_eq (es : List DirEntry) (ref : Str) :
    featResolve es ref =
      match findByDirName es ref with
      | some f => some f
      | none => findBySlug es ref := rfl

theorem create_eq (cfg : Config) (entries : List DirEntry) (slug : Str) :
    create cfg entries slug =
      match validateSlug slug with
      | some e => .error (.invalidSlug e)
      | none =>
        match findBySlug entries slug with
        | some _ => .error .alreadyExists
        | none =>
          match entries.find? fun e =>
              e.name == formatDirName cfg (nextNumber entries) slug with
          | some e =>
            if e.isDir then
              .ok (⟨nextNumber entries, slug,
                formatDirName cfg (nextNumber entries) slug⟩, entries)
            else .error .mkdirFailed
          | none =>
            .ok (⟨nextNumber entries, slug,
                formatDirName cfg (nextNumber entries) slug⟩,
              entries ++ [⟨formatDirName cfg (nextNumber entries) slug,
                true⟩]) := rfl

theorem featResolve_exact {es : List DirEntry} {ref : Str} {g : Feature}
    (h : featResolve es ref = some g) :
    g.dirName = ref ∨ toLowerStr g.slug = toLowerStr ref := by
  rw [featResolve_eq] at h
  cases hfd : findByDirName es ref with
  | some g' =>
    rw [hfd] at h
    have hg : g' = g := by simpa using h
    subst hg
    left
    have := List.find?_some hfd
    simpa using this
  | none =>
    rw [hfd] at h
    have h' : findBySlug es ref = some g := h
    right
    have := List.find?_some h'
    simpa using this

/-- Claim C6: creating a feature with a valid slug and then resolving by
that slug in any letter case returns the created feature (same number,
slug and directory name); resolution is an exact directory-name match
first, then an exact case-insensitive slug match — never partial. -/
theorem create_resolve_round_trip (cfg : Config) (entries : List DirEntry)
    (slug r : Str) (f : Feature) (entries' : List DirEntry)
    (hsep : cfg.separator = ['-'])
    (hc : create cfg entries slug = .ok (f, entries'))
    (hr : toLowerStr r = toLowerStr slug) :
    featResolve entries' r = some f ∧
      (∀ (es : List DirEntry) (ref : Str) (g : Feature),
        featResolve es ref = some g →
          g.dirName = ref ∨ toLowerStr g.slug = toLowerStr ref) := by
  refine ⟨?_, fun es ref g hg => featResolve_exact hg⟩
  rw [create_eq] at hc
  cases hv : validateSlug slug with
  | some e =>
    rw [hv] at hc
    have hc' : (Except.error (CreateError.invalidSlug e) :
        Except CreateError (Feature × List DirEntry)) = .ok (f, entries') := hc
    exact absurd hc' (by simp)
  | none =>
    rw [hv] at hc
    cases hfind : findBySlug entries slug with
    | some g0 =>
      rw [hfind] at hc
      have hc' : (Except.error CreateError.alreadyExists :
          Except CreateError (Feature × List DirEntry)) = .ok (f, entries') :=
        hc
      exact absurd hc' (by simp)
    | none =>
      rw [hfind] at hc
      set num := nextNumber entries with hnum
      set dn := formatDirName cfg num slug with hdn
      have hchars := validateSlug_none_chars hv
      have hlow : toLowerStr slug = slug := toLowerStr_of_slugChars hchars
      obtain ⟨c0, t0, hslug, hc0a, hc0b⟩ := validateSlug_none_head hv
      have hsne : slug ≠ [] := by rw [hslug]; simp
      have hsnl : '\n' ∉ slug := fun hmem =>
        absurd (hchars _ hmem) (by decide)
      have hparse : parseDirName dn = some (num, slug) :=
        parseDirName_format cfg hsep num slug hsne hsnl
      have hrlow : toLowerStr r = slug := by rw [hr, hlow]
      cases hfd : entries.find? fun e => e.name == dn with
      | some e =>
        rw [hfd] at hc
        have hc' : (if e.isDir = true then
            Except.ok ((⟨num, slug, dn⟩ : Feature), entries)
          else Except.error CreateError.mkdirFailed) = .ok (f, entries') := hc
        by_cases hdir : e.isDir
        · exfalso
          have hname : e.name = dn := by
            have := List.find?_some hfd
            simpa using this
          have hmem : (⟨num, slug, dn⟩ : Feature) ∈ listFeatures entries :=
            mem_listFeatures.mpr ⟨e, List.mem_of_find?_eq_some hfd, hdir,
              by rw [hname]; exact hparse, hname.symm⟩
          have hall := List.find?_eq_none.mp hfind _ hmem
          apply hall
          show (toLowerStr slug == toLowerStr slug) = true
          simp
        · rw [if_neg hdir] at hc'
          exact absurd hc' (by simp)
      | none =>
        rw [hfd] at hc
        have hc' : (Except.ok ((⟨num, slug, dn⟩ : Feature),
            entries ++ [⟨dn, true⟩]) :
            Except CreateError (Feature × List DirEntry)) =
            .ok (f, entries') := hc
        simp only [Except.ok.injEq, Prod.mk.injEq] at hc'
        obtain ⟨hfe, hee⟩ := hc'
        subst hfe
        subst hee
        cases r with
        | nil =>
          exfalso
          rw [toLowerStr, List.map_nil, hslug] at hrlow
          exact absurd hrlow (by simp)
        | cons rc rt =>
          have hrc : goToLower rc = c0 ∧ toLowerStr rt = t0 := by
            rw [toLowerStr, List.map_cons, hslug] at hrlow
            simpa using hrlow
          have hmemf : (⟨num, slug, dn⟩ : Feature) ∈
              listFeatures (entries ++ [⟨dn, true⟩]) :=
            mem_listFeatures.mpr ⟨⟨dn, true⟩, by simp, rfl, hparse, rfl⟩
          have hfdn : findByDirName (entries ++ [⟨dn, true⟩]) (rc :: rt) =
              none := by
            rw [findByDirName, List.find?_eq_none]
            intro g hg hbeq
            have hgr : g.dirName = rc :: rt := by simpa using hbeq
            obtain ⟨e', he', hdir', hparse', hdirname⟩ :=
              mem_listFeatures.mp hg
            obtain ⟨d, t, hhead, hdig⟩ := parseDirName_head hparse'
            rw [hdirname, hhead] at hgr
            simp only [List.cons.injEq] at hgr
            rw [isDigitChar] at hdig
            simp only [Bool.and_eq_true, decide_eq_true_eq] at hdig
            have hdd : goToLower d = d := by
              rw [goToLower, if_neg (by omega)]
            have hdc0 : d = c0 := by rw [← hrc.1, ← hgr.1, hdd]
            have : d.toNat = c0.toNat := by rw [hdc0]
            omega
          have hfbs : findBySlug (entries ++ [⟨dn, true⟩]) (rc :: rt) =
              some ⟨num, slug, dn⟩ := by
            rw [findBySlug]
            refine find?_eq_some_of_unique hmemf ?_ ?_
            · show (toLowerStr slug == toLowerStr (rc :: rt)) = true
              rw [hlow, hrlow]
              simp
            · intro g hg hpg
              obtain ⟨e', he', hdir', hparse', hdirname⟩ :=
                mem_listFeatures.mp hg
              rcases List.mem_append.mp he' with hold | hnew
              · exfalso
                have hgold : g ∈ listFeatures entries :=
                  mem_listFeatures.mpr ⟨e', hold, hdir', hparse', hdirname⟩
                have hfail := List.find?_eq_none.mp hfind g hgold
                apply hfail
                show (toLowerStr g.slug == toLowerStr slug) = true
                have hgp : toLowerStr g.slug = toLowerStr (rc :: rt) := by
                  simpa using hpg
                rw [hgp, hr, hlow]
                simp
              · have he'new : e' = ⟨dn, true⟩ := List.mem_singleton.mp hnew
                subst he'new
                have hparse2 : some (num, slug) =
                    some (g.number, g.slug) := by
                  rw [← hparse']
                  exact hparse.symm
                simp only [Option.some.injEq, Prod.mk.injEq] at hparse2
                obtain ⟨hn1, hs1⟩ := hparse2
                obtain ⟨gn, gs, gd⟩ := g
                have hgd : gd = dn := hdirname
                have hn1' : num = gn := hn1
                have hs1' : slug = gs := hs1
                rw [← hn1', ← hs1', hgd]
          rw [featResolve_eq, hfdn]
          exact hfbs

/-- Witness for C6: creating "my-thing" in an empty root and resolving it
as "My-Thing". -/
theorem create_resolve_round_trip_witness :
    featResolve [⟨str "0001-my-thing", true⟩] (str "My-Thing") =
      some ⟨1, str "my-thing", str "0001-my-thing"⟩ :=
  (create_resolve_round_trip ⟨4, str "-"⟩ [] (str "my-thing")
    (str "My-Thing") ⟨1, str "my-thing", str "0001-my-thing"⟩
    [⟨str "0001-my-thing", true⟩] rfl (by rfl) (by decide)).1

end Kit
